import Mathlib

/-!
Verification of the management-app repository's core subsystems against its
natural-language specification: the event-distribution layer (publisher and
pattern-routed consumer), the position engine embedded in the list controller,
the board permission model, the real-time fan-out session handlers, and the
publish-failure error handling of the mutation controllers.

All definitions are shallow embeddings of the JavaScript source.  Where a
source fragment relies on JavaScript-specific semantics (e.g.
`String.prototype.replace` with a string pattern replaces only the first
occurrence, `''.split('.')` yields `['']`, out-of-range array indexing yields
`undefined`), the embedding reproduces that semantics and a comment records
the correspondence.
-/

namespace ManagementApp

/-! ## Event Distribution Layer: Publisher (src/unnamed/part_009) -/

/-- JavaScript `s.replace(c, r)` with a single-character string pattern:
replaces only the FIRST occurrence of `c` in `s`.  Char-list worker. -/
def jsReplaceFirstChar (c r : Char) : List Char → List Char
  | [] => []
  | x :: xs => if x = c then r :: xs else x :: jsReplaceFirstChar c r xs

/-- `eventType.replace('.', '_')` from `Publisher.publishEvent`
(src/unnamed/part_009 line 25): the first `.` becomes `_`. -/
def replaceFirstDot (s : String) : String :=
  String.mk (jsReplaceFirstChar '.' '_' s.data)

/-- `const routingPattern = routingKey || eventType.replace('.', '_')`
(src/unnamed/part_009 line 25).  `routingKey` defaults to `''`; the only
falsy string is the empty string, so the fallback fires exactly when the
caller passed no (or an empty) routing key. -/
def publishRoutingKey (eventType routingKey : String) : String :=
  if routingKey = "" then replaceFirstDot eventType else routingKey

/-! ## Event Distribution Layer: Consumer (src/shared-utils/rabbitmq/consumer.js) -/

/-- JavaScript `s.split('.')` worker over char lists: splits on `'.'`,
keeping empty segments; `''.split('.')` yields `['']`. -/
def jsSplitDotAux : List Char → List Char → List (List Char)
  | [], acc => [acc.reverse]
  | c :: cs, acc =>
      if c = '.' then acc.reverse :: jsSplitDotAux cs []
      else jsSplitDotAux cs (c :: acc)

/-- JavaScript `s.split('.')`. -/
def jsSplitDot (s : String) : List String :=
  (jsSplitDotAux s.data []).map String.mk

/-- The `for` loop of `Consumer.matchPattern` (consumer.js lines 87-94),
recursing position-by-position over the two segment lists.  `lenEq` is the
post-loop check `routingParts.length === patternParts.length` computed on
the ORIGINAL lists (the loop index runs to the max of both lengths; an
exhausted list reads as JS `undefined`, which is `!==` any string). -/
def matchPatternLoop (lenEq : Bool) : List String → List String → Bool
  | [], [] => lenEq
  | _ :: _, [] => false
  | [], p :: ps =>
      if p = "#" then true
      else if p = "*" then matchPatternLoop lenEq [] ps
      else false
  | r :: rs, p :: ps =>
      if p = "#" then true
      else if p = "*" then matchPatternLoop lenEq rs ps
      else if r = p then matchPatternLoop lenEq rs ps
      else false

/-- `Consumer.matchPattern(routingKey, pattern)` (consumer.js lines 81-97). -/
def matchPattern (routingKey pattern : String) : Bool :=
  if pattern = "#" then true
  else
    let routingParts := jsSplitDot routingKey
    let patternParts := jsSplitDot pattern
    matchPatternLoop (routingParts.length = patternParts.length) routingParts patternParts

/-- Broker acknowledgement outcome of one delivery. -/
inductive Ack where
  | ack : Ack
  | nackRequeue : Ack
deriving DecidableEq, Repr

/-- The handler registry is a `Map` iterated in insertion (registration)
order; each handler is modelled by whether invoking it throws. -/
abbrev HandlerRegistry := List (String × Bool)

/-- The `for (const [pattern, handler] of this.handlers)` loop of the consume
callback (consumer.js lines 52-59): invoke the first handler whose pattern
matches, then `break`.  Returns the indices of the handlers that were
actually invoked (in source registration order) together with the `handled`
flag and whether the invoked handler threw (an exception aborts the loop and
propagates to the surrounding `catch`). -/
def runHandlers (routingKey : String) : HandlerRegistry → List Nat × Bool × Bool
  | [] => ([], false, false)
  | (pattern, throws) :: rest =>
      if matchPattern routingKey pattern then ([0], true, throws)
      else
        let (invoked, handled, threw) := runHandlers routingKey rest
        (invoked.map (· + 1), handled, threw)

/-- One delivery through the consume callback (consumer.js lines 38-73):
`JSON.parse` failure throws before any handler runs; a thrown handler
reaches the `catch` which `nack`s with requeue; otherwise the message is
`ack`ed — also when no handler matched (after a warning log).  Returns the
acknowledgement and the invoked handler indices. -/
def consumeStep (handlers : HandlerRegistry) (parseOk : Bool) (routingKey : String) :
    Ack × List Nat :=
  if parseOk then
    let (invoked, _handled, threw) := runHandlers routingKey handlers
    if threw then (Ack.nackRequeue, invoked) else (Ack.ack, invoked)
  else (Ack.nackRequeue, [])

/-! ## Permission model (src/unnamed/part_002, boardSchema methods) -/

/-- Board membership roles, `enum: ['admin', 'member', 'viewer']`. -/
inductive Role where
  | viewer : Role
  | member : Role
  | admin : Role
deriving DecidableEq, Repr

/-- `const roleHierarchy = { viewer: 1, member: 2, admin: 3 }`
(part_002 line 136). -/
def roleHierarchy : Role → Nat
  | Role.viewer => 1
  | Role.member => 2
  | Role.admin => 3

/-- One entry of `boardSchema.members`: a userId with a role (ids modelled
as naturals; the source compares ObjectId strings for equality). -/
structure Member where
  userId : Nat
  role : Role
deriving DecidableEq, Repr

/-- The fields of a board that the permission methods consult. -/
structure Board where
  owner : Nat
  members : List Member
deriving DecidableEq, Repr

/-- `boardSchema.methods.isMember` (part_002 lines 125-128). -/
def Board.isMember (b : Board) (userId : Nat) : Bool :=
  b.members.any (fun m => m.userId == userId) || b.owner == userId

/-- `boardSchema.methods.hasPermission` (part_002 lines 130-138): the owner
always passes; otherwise `members.find` takes the first entry for the user
and its role's rank must reach the required role's rank. -/
def Board.hasPermission (b : Board) (userId : Nat) (requiredRole : Role) : Bool :=
  if b.owner == userId then true
  else
    match b.members.find? (fun m => m.userId == userId) with
    | none => false
    | some m => roleHierarchy requiredRole ≤ roleHierarchy m.role

/-! ## Position Engine (src/services/board-service/controllers/listController.js)

A board's lists are modelled as the scope: the documents holding a position
and an archived flag.  Each controller operation below is the positional
effect of the corresponding handler's storage writes (`updateMany` with
`$inc`, `save`, `findByIdAndDelete`) on that scope; permission checks and
statistics are outside the positional claims. -/

/-- One `List` document's fields relevant to ordering
(src/services/board-service/models/List.js). -/
structure LItem where
  id : Nat
  pos : Nat
  archived : Bool
deriving DecidableEq, Repr

/-- All list documents of one board (the scope). -/
abbrev Scope := List LItem

/-- Positions of the non-archived lists of the scope, in document order. -/
def activePos (s : Scope) : List Nat :=
  (s.filter (fun l => !l.archived)).map (·.pos)

/-- Number of non-archived lists in the scope. -/
def activeCount (s : Scope) : Nat := (activePos s).length

/-- `List.findOne({ boardId, isArchived: false }).sort({ position: -1 })
.select('position')` (listController.js lines 46-48): the greatest position
among non-archived lists, `none` when the scope has none. -/
def maxActivePos (s : Scope) : Option Nat := (activePos s).max?

/-- `ListController.createList`, positional effect (listController.js lines
43-68): with no requested position, append at `max + 1` (or `0` in an empty
scope); with a requested position `p`, `updateMany({boardId, position:
{$gte: p}, isArchived: false}, {$inc: {position: 1}})` then save the new
list at `p`.  No clamping of `p` occurs anywhere (the Joi validators only
enforce `position ≥ 0`). -/
def createList (s : Scope) (newId : Nat) (position? : Option Nat) : Scope :=
  match position? with
  | none =>
      let finalPosition := match maxActivePos s with
        | some m => m + 1
        | none => 0
      s ++ [⟨newId, finalPosition, false⟩]
  | some p =>
      (s.map (fun l => if p ≤ l.pos && !l.archived then { l with pos := l.pos + 1 } else l))
        ++ [⟨newId, p, false⟩]

/-- `ListController.moveList`, positional effect (listController.js lines
332-435): a missing list is a 404 (no write); `oldPosition === newPosition`
returns early (no write); otherwise the two `updateMany` branches shift the
other non-archived lists between the old and new position and the moved
list is saved at `newPosition`. -/
def moveList (s : Scope) (listId : Nat) (newPosition : Nat) : Scope :=
  match s.find? (fun l => l.id == listId) with
  | none => s
  | some target =>
      let oldPosition := target.pos
      if oldPosition = newPosition then s
      else if oldPosition < newPosition then
        s.map (fun l =>
          if l.id == listId then { l with pos := newPosition }
          else if oldPosition < l.pos && l.pos ≤ newPosition && !l.archived then
            { l with pos := l.pos - 1 }
          else l)
      else
        s.map (fun l =>
          if l.id == listId then { l with pos := newPosition }
          else if newPosition ≤ l.pos && l.pos < oldPosition && !l.archived then
            { l with pos := l.pos + 1 }
          else l)

/-- `ListController.archiveList`, positional effect (listController.js lines
438-536): a missing list is a 404, an already-archived list a 400 (no
write); otherwise the list is flagged archived and every non-archived list
with a greater position is decremented. -/
def archiveList (s : Scope) (listId : Nat) : Scope :=
  match s.find? (fun l => l.id == listId) with
  | none => s
  | some target =>
      if target.archived then s
      else
        s.map (fun l =>
          if l.id == listId then { l with archived := true }
          else if target.pos < l.pos && !l.archived then { l with pos := l.pos - 1 }
          else l)

/-- `ListController.deleteList`, positional effect (listController.js lines
613-699): a missing list is a 404; otherwise every non-archived list with a
greater position is decremented and the list document is removed. -/
def deleteList (s : Scope) (listId : Nat) : Scope :=
  match s.find? (fun l => l.id == listId) with
  | none => s
  | some target =>
      (s.filter (fun l => !(l.id == listId))).map (fun l =>
        if target.pos < l.pos && !l.archived then { l with pos := l.pos - 1 } else l)

/-- An operation on one board scope. -/
inductive Op where
  | create (newId : Nat) (position? : Option Nat) : Op
  | move (listId : Nat) (newPosition : Nat) : Op
  | archive (listId : Nat) : Op
  | delete (listId : Nat) : Op
deriving DecidableEq, Repr

/-- Apply one operation through the corresponding controller. -/
def applyOp (s : Scope) : Op → Scope
  | Op.create newId position? => createList s newId position?
  | Op.move listId newPosition => moveList s listId newPosition
  | Op.archive listId => archiveList s listId
  | Op.delete listId => deleteList s listId

/-- Apply a sequence of operations in order. -/
def applyOps (s : Scope) (ops : List Op) : Scope := ops.foldl applyOp s

/-- The contiguity invariant of the spec: the positions of the non-archived
lists are exactly `{0, …, n-1}`, no gaps, no duplicates. -/
def Contiguous (s : Scope) : Prop :=
  (activePos s).Perm (List.range (activeCount s))

instance (s : Scope) : Decidable (Contiguous s) := List.decidablePerm _ _

/-- The position shift an insert at `p` applies to an existing non-archived
position (`updateMany` with `position: {$gte: p}`, `$inc: {position: 1}`). -/
def bumpGe (p x : Nat) : Nat := if p ≤ x then x + 1 else x

/-- The position shift a removal at `p` applies to a remaining non-archived
position (`updateMany` with `position: {$gt: p}`, `$inc: {position: -1}`). -/
def dropGt (p x : Nat) : Nat := if p < x then x - 1 else x

/-- The position shift a move from `oldP` to `newP` applies to another
non-archived position: the spec's two `updateMany` windows. -/
def moveShift (oldP newP x : Nat) : Nat :=
  if oldP < newP then (if oldP < x ∧ x ≤ newP then x - 1 else x)
  else (if newP ≤ x ∧ x < oldP then x + 1 else x)

/-- Database well-formedness of a scope: document ids are unique (Mongo
`_id`) and the contiguity invariant holds. -/
def WFScope (s : Scope) : Prop :=
  (s.map (·.id)).Nodup ∧ Contiguous s

instance (s : Scope) : Decidable (WFScope s) := instDecidableAnd

/-- Validity of one operation against the current scope, as assumed by the
spec's position-engine contract: fresh id and in-range position for an
insert, an in-range target for a move, a non-archived target for a delete.
Archive needs no side condition (an already-archived target is a 400
no-op).  A move whose target already sits at the requested position is the
documented no-op and is always valid. -/
def opOk (s : Scope) : Op → Bool
  | Op.create newId position? =>
      s.all (fun l => !(l.id == newId)) &&
      (match position? with
       | some p => decide (p ≤ activeCount s)
       | none => true)
  | Op.move listId newPosition =>
      match s.find? (fun l => l.id == listId) with
      | some t => t.pos == newPosition || (!t.archived && decide (newPosition < activeCount s))
      | none => true
  | Op.archive _ => true
  | Op.delete listId =>
      match s.find? (fun l => l.id == listId) with
      | some t => !t.archived
      | none => true

/-- Validity of a whole operation sequence, checked against the evolving
scope. -/
def opsOk (s : Scope) : List Op → Bool
  | [] => true
  | op :: rest => opOk s op && opsOk (applyOp s op) rest

/-! ## Real-Time Fan-out Layer (socketHandler in
src/services/board-service/controllers/boardController.js) -/

/-- A socket.io room: the source keys rooms by the strings `user:{userId}`
and `board:{boardId}`; the disjoint prefixes are modelled by the two
constructors. -/
inductive Room where
  | user (userId : String) : Room
  | board (boardId : String) : Room
deriving DecidableEq, Repr

/-- Server→client broadcasts the modelled handlers send (via
`socket.to(room).emit(...)`), tagged with the target room. -/
inductive Emission where
  | userJoinedBoard (room : Room) : Emission
  | userLeftBoard (room : Room) : Emission
  | userTyping (room : Room) : Emission
  | userStoppedTyping (room : Room) : Emission
  | presenceUpdated (room : Room) (status : String) : Emission
deriving DecidableEq, Repr

/-- Per-connection session state: the socket's room memberships,
`socket.currentBoard`, the closure variable `typingTimer` of
`handleTypingIndicators` (holding the boardId the pending timeout will
broadcast to), and the log of broadcasts sent so far. -/
structure Session where
  userId : String
  rooms : List Room
  currentBoard : Option String
  typingTimer : Option String
  emissions : List Emission
deriving DecidableEq, Repr

/-- Record one broadcast. -/
def sendEmission (st : Session) (e : Emission) : Session :=
  { st with emissions := st.emissions ++ [e] }

/-- `socket.join(room)`: idempotent membership insert. -/
def socketJoin (st : Session) (r : Room) : Session :=
  if r ∈ st.rooms then st else { st with rooms := st.rooms ++ [r] }

/-- `socket.leave(room)`: membership removal (no-op when absent). -/
def socketLeave (st : Session) (r : Room) : Session :=
  { st with rooms := st.rooms.erase r }

/-- `joinBoardRoom(socket, boardId)` (boardController.js lines 1361-1379):
join the room, set `socket.currentBoard`, notify the room. -/
def joinBoardRoom (st : Session) (boardId : String) : Session :=
  let st1 := socketJoin st (Room.board boardId)
  let st2 := { st1 with currentBoard := some boardId }
  sendEmission st2 (Emission.userJoinedBoard (Room.board boardId))

/-- `leaveBoardRoom(socket, boardId)` (lines 1381-1397): leave the room and
notify it.  It does NOT clear `socket.currentBoard`. -/
def leaveBoardRoom (st : Session) (boardId : String) : Session :=
  sendEmission (socketLeave st (Room.board boardId))
    (Emission.userLeftBoard (Room.board boardId))

/-- Client→server events relevant to the session claims. -/
inductive ClientEv where
  | joinBoard (boardId : String) : ClientEv
  | leaveBoard (boardId : String) : ClientEv
  | startTyping (boardId : String) : ClientEv
  | stopTyping (boardId : String) : ClientEv
deriving DecidableEq, Repr

/-- The connection's event handlers (lines 1592-1633; typing handlers lines
1515-1555).  `join_board` leaves the previous board first when it differs;
`leave_board` leaves the CLIENT-SUPPLIED board and clears
`socket.currentBoard`; `start_typing` broadcasts, resets the pending timer
and arms a new one; `stop_typing` broadcasts and cancels the timer. -/
def handleClientEv (st : Session) : ClientEv → Session
  | ClientEv.joinBoard boardId =>
      let st1 := match st.currentBoard with
        | some current => if current ≠ boardId then leaveBoardRoom st current else st
        | none => st
      joinBoardRoom st1 boardId
  | ClientEv.leaveBoard boardId =>
      let st1 := leaveBoardRoom st boardId
      { st1 with currentBoard := none }
  | ClientEv.startTyping boardId =>
      let st1 := sendEmission st (Emission.userTyping (Room.board boardId))
      { st1 with typingTimer := some boardId }
  | ClientEv.stopTyping boardId =>
      let st1 := sendEmission st (Emission.userStoppedTyping (Room.board boardId))
      { st1 with typingTimer := none }

/-- Expiry of the armed 3-second timeout (lines 1533-1539): if still
pending, broadcast `user_stopped_typing` to the captured board room. -/
def fireTypingTimer (st : Session) : Session :=
  match st.typingTimer with
  | some boardId =>
      sendEmission { st with typingTimer := none }
        (Emission.userStoppedTyping (Room.board boardId))
  | none => st

/-- The `disconnect` handler (lines 1636-1658): leave the tracked board
room if any, then broadcast presence `offline` to it (`leaveBoardRoom`
leaves `socket.currentBoard` set, so the second check sees the same
board).  The handler never touches `typingTimer`. -/
def onDisconnect (st : Session) : Session :=
  let st1 := match st.currentBoard with
    | some boardId => leaveBoardRoom st boardId
    | none => st
  match st1.currentBoard with
  | some boardId =>
      sendEmission st1 (Emission.presenceUpdated (Room.board boardId) "offline")
  | none => st1

/-- Connection setup (line 1594): the socket joins its personal room. -/
def initialSession (userId : String) : Session :=
  { userId := userId, rooms := [Room.user userId], currentBoard := none,
    typingTimer := none, emissions := [] }

/-- Run a sequence of client events. -/
def handleClientEvs (st : Session) (evs : List ClientEv) : Session :=
  evs.foldl handleClientEv st

/-- The board rooms the session currently occupies. -/
def boardRooms (st : Session) : List Room :=
  st.rooms.filter (fun r => match r with | Room.board _ => true | Room.user _ => false)

/-- Validity of a client event as the spec assumes it: a leave request
names the board the session is currently in. -/
def evOk (st : Session) : ClientEv → Bool
  | ClientEv.leaveBoard boardId => st.currentBoard == some boardId
  | _ => true

/-- Validity of a whole event sequence against the evolving session. -/
def evsOk (st : Session) : List ClientEv → Bool
  | [] => true
  | ev :: rest => evOk st ev && evsOk (handleClientEv st ev) rest

/-- The session-state shape the fan-out spec intends: the personal room
plus exactly the tracked board room (when one is tracked). -/
def sessionShape (uid : String) (st : Session) : Prop :=
  st.rooms = Room.user uid :: (match st.currentBoard with
    | some b => [Room.board b]
    | none => [])

/-! ## Mutation controllers: publish is best-effort (claim about
listController.js lines 89-101 and src/unnamed/part_001 lines 56-67) -/

/-- What `publisher.publishEvent` yields to its caller: the message id, or
a thrown error. -/
abbrev PublishResult := Except String Nat

/-- The status/flag pair `ResponseFormatter` puts on the wire. -/
structure HttpResponse where
  status : Nat
  success : Bool
deriving DecidableEq, Repr

/-- Tail of `ListController.createList` after the permission checks
(listController.js lines 43-125): persist the positional writes, `try` the
publish — `catch (publishError) { logger.error(...) }` — then always
respond 201.  Returns the stored scope, the response, and the error log. -/
def createListController (s : Scope) (newId : Nat) (position? : Option Nat)
    (publish : PublishResult) : Scope × HttpResponse × List String :=
  let s1 := createList s newId position?
  match publish with
  | Except.ok _ => (s1, ⟨201, true⟩, [])
  | Except.error e => (s1, ⟨201, true⟩, ["Failed to publish list creation event: " ++ e])

/-- The workspace fields `createWorkspace` persists. -/
structure Workspace where
  name : String
  slug : String
  owner : Nat
deriving DecidableEq, Repr

/-- Tail of `WorkspaceController.createWorkspace` after validation
(src/unnamed/part_001 lines 28-75): `workspace.save()`, `try` the publish —
`catch (publishError) { logger.error(...) }` — then always respond 201. -/
def createWorkspaceController (stored : List Workspace) (w : Workspace)
    (publish : PublishResult) : List Workspace × HttpResponse × List String :=
  let stored1 := stored ++ [w]
  match publish with
  | Except.ok _ => (stored1, ⟨201, true⟩, [])
  | Except.error e =>
      (stored1, ⟨201, true⟩, ["Failed to publish workspace creation event: " ++ e])

/-! # Theorems

Infrastructure lemmas about the position engine, then one theorem (plus
counterexample/witness where applicable) per specification claim. -/

theorem activePos_nil : activePos [] = [] := rfl

theorem activePos_cons (l : LItem) (s : Scope) :
    activePos (l :: s) = if l.archived then activePos s else l.pos :: activePos s := by
  by_cases h : l.archived <;> simp [activePos, List.filter_cons, h]

theorem activePos_append (s t : Scope) :
    activePos (s ++ t) = activePos s ++ activePos t := by
  simp [activePos, List.filter_append]

theorem activePos_map_shift (C : Nat → Bool) (adj : Nat → Nat) (f : LItem → LItem)
    (hf : ∀ l, f l = if C l.pos && !l.archived then { l with pos := adj l.pos } else l)
    (t : Scope) :
    activePos (t.map f) = (activePos t).map (fun x => if C x then adj x else x) := by
  induction t with
  | nil => simp [activePos]
  | cons hd tl ih =>
    rw [List.map_cons, hf hd]
    by_cases ha : hd.archived
    · simp [activePos_cons, ha, ih]
    · by_cases hc : C hd.pos
      · simp [activePos_cons, ha, hc, ih]
      · simp [activePos_cons, ha, hc, ih]

theorem activePos_create_some (s : Scope) (newId p : Nat) :
    activePos (createList s newId (some p)) = (activePos s).map (bumpGe p) ++ [p] := by
  show activePos
      ((s.map (fun l => if p ≤ l.pos && !l.archived then { l with pos := l.pos + 1 } else l))
        ++ [⟨newId, p, false⟩]) = _
  rw [activePos_append,
    activePos_map_shift (fun x => decide (p ≤ x)) (· + 1) _ (fun l => rfl)]
  have hmap : (activePos s).map (fun x => if decide (p ≤ x) then x + 1 else x)
      = (activePos s).map (bumpGe p) := by
    apply List.map_congr_left
    intro x _
    by_cases hx : p ≤ x <;> simp [bumpGe, hx]
  rw [hmap]
  simp [activePos_cons, activePos_nil]

theorem activePos_create_none (s : Scope) (newId : Nat) :
    activePos (createList s newId none)
      = activePos s ++ [match maxActivePos s with | some m => m + 1 | none => 0] := by
  show activePos (s ++ [⟨newId, match maxActivePos s with
      | some m => m + 1 | none => 0, false⟩]) = _
  rw [activePos_append]
  simp [activePos_cons, activePos_nil]

theorem find?_decomp {α : Type} {p : α → Bool} :
    ∀ {l : List α} {a : α}, l.find? p = some a →
      ∃ l₁ l₂, l = l₁ ++ a :: l₂ ∧ (∀ x ∈ l₁, p x = false) ∧ p a = true := by
  intro l
  induction l with
  | nil => intro a h; simp at h
  | cons hd tl ih =>
    intro a h
    by_cases hp : p hd
    · rw [List.find?_cons_of_pos _ hp] at h
      obtain rfl : hd = a := by injection h
      exact ⟨[], tl, rfl, by simp, hp⟩
    · rw [List.find?_cons_of_neg _ hp] at h
      obtain ⟨l₁, l₂, rfl, hnone, hpa⟩ := ih h
      refine ⟨hd :: l₁, l₂, rfl, ?_, hpa⟩
      intro x hx
      rcases List.mem_cons.mp hx with rfl | hx
      · exact Bool.not_eq_true _ ▸ (by simpa using hp)
      · exact hnone x hx

theorem nodup_ids_no_match {s₁ s₂ : Scope} {target : LItem}
    (hids : ((s₁ ++ target :: s₂).map (·.id)).Nodup) :
    ∀ x ∈ s₂, (x.id == target.id) = false := by
  intro x hx
  rw [List.map_append, List.map_cons] at hids
  have h1 : (target.id :: s₂.map (·.id)).Nodup := (List.nodup_append.mp hids).2.1
  have h2 : target.id ∉ s₂.map (·.id) := (List.nodup_cons.mp h1).1
  have hne : x.id ≠ target.id := by
    intro he
    exact h2 (he ▸ List.mem_map_of_mem (·.id) hx)
  simpa using hne

theorem archiveList_eq_of_find {s : Scope} {listId : Nat} {target : LItem}
    (hfind : s.find? (fun l => l.id == listId) = some target)
    (hact : target.archived = false) :
    archiveList s listId = s.map (fun l =>
      if l.id == listId then { l with archived := true }
      else if target.pos < l.pos && !l.archived then { l with pos := l.pos - 1 }
      else l) := by
  unfold archiveList
  rw [hfind]
  simp [hact]

theorem archive_decomp (s : Scope) (listId : Nat) (target : LItem)
    (hids : (s.map (·.id)).Nodup)
    (hfind : s.find? (fun l => l.id == listId) = some target)
    (hact : target.archived = false) :
    ∃ A B, activePos s = A ++ target.pos :: B ∧
      activePos (archiveList s listId) = (A ++ B).map (dropGt target.pos) := by
  obtain ⟨s₁, s₂, hs, hnone, hptgt⟩ := find?_decomp hfind
  have htid : target.id = listId := by simpa using hptgt
  subst hs
  have hnone₂ : ∀ x ∈ s₂, (x.id == listId) = false := by
    intro x hx
    exact htid ▸ nodup_ids_no_match hids x hx
  have hshape : ∀ t : Scope, (∀ x ∈ t, (x.id == listId) = false) →
      activePos (t.map (fun l =>
        if l.id == listId then { l with archived := true }
        else if target.pos < l.pos && !l.archived then { l with pos := l.pos - 1 }
        else l)) = (activePos t).map (dropGt target.pos) := by
    intro t ht
    rw [List.map_congr_left (g := fun l =>
        if target.pos < l.pos && !l.archived then { l with pos := l.pos - 1 } else l)
      (fun x hx => by rw [ht x hx]; simp)]
    rw [activePos_map_shift (fun v => decide (target.pos < v)) (· - 1) _ (fun l => rfl)]
    apply List.map_congr_left
    intro x _
    by_cases h : target.pos < x <;> simp [dropGt, h]
  refine ⟨activePos s₁, activePos s₂, ?_, ?_⟩
  · simp [activePos_append, activePos_cons, hact]
  · rw [archiveList_eq_of_find hfind hact, List.map_append, List.map_cons,
      activePos_append]
    have htgt : (if target.id == listId then { target with archived := true }
        else if target.pos < target.pos && !target.archived then
          { target with pos := target.pos - 1 }
        else target) = { target with archived := true } := by simp [htid]
    rw [htgt, activePos_cons]
    simp only [show ({ target with archived := true } : LItem).archived = true from rfl,
      if_pos]
    rw [hshape s₁ hnone, hshape s₂ hnone₂, List.map_append]

theorem deleteList_eq_of_find {s : Scope} {listId : Nat} {target : LItem}
    (hfind : s.find? (fun l => l.id == listId) = some target) :
    deleteList s listId = (s.filter (fun l => !(l.id == listId))).map (fun l =>
      if target.pos < l.pos && !l.archived then { l with pos := l.pos - 1 } else l) := by
  unfold deleteList
  rw [hfind]

theorem delete_decomp (s : Scope) (listId : Nat) (target : LItem)
    (hids : (s.map (·.id)).Nodup)
    (hfind : s.find? (fun l => l.id == listId) = some target)
    (hact : target.archived = false) :
    ∃ A B, activePos s = A ++ target.pos :: B ∧
      activePos (deleteList s listId) = (A ++ B).map (dropGt target.pos) := by
  obtain ⟨s₁, s₂, hs, hnone, hptgt⟩ := find?_decomp hfind
  have htid : target.id = listId := by simpa using hptgt
  subst hs
  have hnone₂ : ∀ x ∈ s₂, (x.id == listId) = false := by
    intro x hx
    exact htid ▸ nodup_ids_no_match hids x hx
  refine ⟨activePos s₁, activePos s₂, ?_, ?_⟩
  · simp [activePos_append, activePos_cons, hact]
  · rw [deleteList_eq_of_find hfind]
    have hfilter : (s₁ ++ target :: s₂).filter (fun l => !(l.id == listId)) = s₁ ++ s₂ := by
      rw [List.filter_append, List.filter_cons]
      rw [List.filter_eq_self.mpr (fun x hx => by rw [hnone x hx]; rfl),
        List.filter_eq_self.mpr (fun x hx => by rw [hnone₂ x hx]; rfl)]
      simp [htid]
    rw [hfilter,
      activePos_map_shift (fun v => decide (target.pos < v)) (· - 1) _ (fun l => rfl)]
    rw [activePos_append]
    simp only [List.map_append]
    congr 1 <;>
      · apply List.map_congr_left
        intro x _
        by_cases h : target.pos < x <;> simp [dropGt, h]

theorem moveList_eq_of_find_lt {s : Scope} {listId newPos : Nat} {target : LItem}
    (hfind : s.find? (fun l => l.id == listId) = some target)
    (hlt : target.pos < newPos) :
    moveList s listId newPos = s.map (fun l =>
      if l.id == listId then { l with pos := newPos }
      else if target.pos < l.pos && l.pos ≤ newPos && !l.archived then
        { l with pos := l.pos - 1 }
      else l) := by
  unfold moveList
  rw [hfind]
  simp [Nat.ne_of_lt hlt, hlt]

theorem moveList_eq_of_find_gt {s : Scope} {listId newPos : Nat} {target : LItem}
    (hfind : s.find? (fun l => l.id == listId) = some target)
    (hgt : newPos < target.pos) :
    moveList s listId newPos = s.map (fun l =>
      if l.id == listId then { l with pos := newPos }
      else if newPos ≤ l.pos && l.pos < target.pos && !l.archived then
        { l with pos := l.pos + 1 }
      else l) := by
  unfold moveList
  rw [hfind]
  simp [(Nat.ne_of_lt hgt).symm, Nat.lt_asymm hgt]

theorem move_decomp (s : Scope) (listId newPos : Nat) (target : LItem)
    (hids : (s.map (·.id)).Nodup)
    (hfind : s.find? (fun l => l.id == listId) = some target)
    (hact : target.archived = false)
    (hne : target.pos ≠ newPos) :
    ∃ A B, activePos s = A ++ target.pos :: B ∧
      activePos (moveList s listId newPos)
        = A.map (moveShift target.pos newPos)
          ++ newPos :: B.map (moveShift target.pos newPos) := by
  obtain ⟨s₁, s₂, hs, hnone, hptgt⟩ := find?_decomp hfind
  have htid : target.id = listId := by simpa using hptgt
  subst hs
  have hnone₂ : ∀ x ∈ s₂, (x.id == listId) = false := by
    intro x hx
    exact htid ▸ nodup_ids_no_match hids x hx
  refine ⟨activePos s₁, activePos s₂, ?_, ?_⟩
  · simp [activePos_append, activePos_cons, hact]
  rcases Nat.lt_or_gt_of_ne hne with hlt | hgt
  · have hshape : ∀ t : Scope, (∀ x ∈ t, (x.id == listId) = false) →
        activePos (t.map (fun l =>
          if l.id == listId then { l with pos := newPos }
          else if target.pos < l.pos && l.pos ≤ newPos && !l.archived then
            { l with pos := l.pos - 1 }
          else l)) = (activePos t).map (moveShift target.pos newPos) := by
      intro t ht
      rw [List.map_congr_left (g := fun l =>
          if (decide (target.pos < l.pos) && decide (l.pos ≤ newPos)) && !l.archived then
            { l with pos := l.pos - 1 }
          else l)
        (fun x hx => by rw [ht x hx]; simp [Bool.and_assoc])]
      rw [activePos_map_shift
        (fun v => decide (target.pos < v) && decide (v ≤ newPos)) (· - 1) _ (fun l => rfl)]
      apply List.map_congr_left
      intro x _
      by_cases h1 : target.pos < x <;> by_cases h2 : x ≤ newPos <;>
        simp [moveShift, hlt, h1, h2]
    rw [moveList_eq_of_find_lt hfind hlt, List.map_append, List.map_cons,
      activePos_append]
    have htgt : (if target.id == listId then { target with pos := newPos }
        else if target.pos < target.pos && target.pos ≤ newPos && !target.archived then
          { target with pos := target.pos - 1 }
        else target) = { target with pos := newPos } := by simp [htid]
    rw [htgt, activePos_cons, hshape s₁ hnone, hshape s₂ hnone₂]
    simp [hact]
  · have hshape : ∀ t : Scope, (∀ x ∈ t, (x.id == listId) = false) →
        activePos (t.map (fun l =>
          if l.id == listId then { l with pos := newPos }
          else if newPos ≤ l.pos && l.pos < target.pos && !l.archived then
            { l with pos := l.pos + 1 }
          else l)) = (activePos t).map (moveShift target.pos newPos) := by
      intro t ht
      rw [List.map_congr_left (g := fun l =>
          if (decide (newPos ≤ l.pos) && decide (l.pos < target.pos)) && !l.archived then
            { l with pos := l.pos + 1 }
          else l)
        (fun x hx => by rw [ht x hx]; simp [Bool.and_assoc])]
      rw [activePos_map_shift
        (fun v => decide (newPos ≤ v) && decide (v < target.pos)) (· + 1) _ (fun l => rfl)]
      apply List.map_congr_left
      intro x _
      by_cases h1 : newPos ≤ x <;> by_cases h2 : x < target.pos <;>
        simp [moveShift, Nat.lt_asymm hgt, h1, h2]
    rw [moveList_eq_of_find_gt hfind hgt, List.map_append, List.map_cons,
      activePos_append]
    have htgt : (if target.id == listId then { target with pos := newPos }
        else if newPos ≤ target.pos && target.pos < target.pos && !target.archived then
          { target with pos := target.pos + 1 }
        else target) = { target with pos := newPos } := by simp [htid]
    rw [htgt, activePos_cons, hshape s₁ hnone, hshape s₂ hnone₂]
    simp [hact]

theorem range_bump_insert : ∀ (n p : Nat), p ≤ n →
    List.Perm ((List.range n).map (bumpGe p) ++ [p]) (List.range (n + 1)) := by
  intro n
  induction n with
  | zero =>
    intro p hp
    obtain rfl : p = 0 := Nat.le_zero.mp hp
    simp [List.range_succ]
  | succ n ih =>
    intro p hp
    rcases Nat.lt_or_ge p (n + 1) with h | h
    · have hpn : p ≤ n := Nat.lt_succ_iff.mp h
      rw [List.range_succ, List.map_append]
      have hbn : (([n]).map (bumpGe p)) = [n + 1] := by simp [bumpGe, hpn]
      rw [hbn]
      have step1 : List.Perm (((List.range n).map (bumpGe p) ++ [n + 1]) ++ [p])
          (((List.range n).map (bumpGe p) ++ [p]) ++ [n + 1]) := by
        rw [List.append_assoc, List.append_assoc]
        exact List.Perm.append_left _ List.perm_append_comm
      refine step1.trans ?_
      refine ((ih p hpn).append_right [n + 1]).trans ?_
      rw [← List.range_succ]
    · obtain rfl : p = n + 1 := Nat.le_antisymm hp h
      have hm : (List.range (n + 1)).map (bumpGe (n + 1)) = List.range (n + 1) := by
        have hid : ∀ x ∈ List.range (n + 1), bumpGe (n + 1) x = x := by
          intro x hx
          have : x < n + 1 := List.mem_range.mp hx
          simp [bumpGe]
          omega
        rw [List.map_congr_left hid]
        exact List.map_id _
      rw [hm, ← List.range_succ]

theorem range_erase_drop : ∀ (n p : Nat), p ≤ n →
    List.Perm (((List.range (n + 1)).filter (fun x => x != p)).map (dropGt p))
      (List.range n) := by
  intro n
  induction n with
  | zero =>
    intro p hp
    obtain rfl : p = 0 := Nat.le_zero.mp hp
    simp
  | succ n ih =>
    intro p hp
    rcases Nat.lt_or_ge p (n + 1) with h | h
    · have hpn : p ≤ n := Nat.lt_succ_iff.mp h
      rw [List.range_succ (n + 1), List.filter_append, List.map_append]
      have hkeep : ([n + 1]).filter (fun x => x != p) = [n + 1] := by
        simp
        omega
      rw [hkeep]
      have hlast : ([n + 1]).map (dropGt p) = [n] := by
        simp [dropGt]
        omega
      rw [hlast]
      refine ((ih p hpn).append_right [n]).trans ?_
      rw [← List.range_succ]
    · obtain rfl : p = n + 1 := Nat.le_antisymm hp h
      rw [List.range_succ (n + 1), List.filter_append]
      have hdrop : ([n + 1]).filter (fun x => x != (n + 1)) = [] := by simp
      have hkeep : (List.range (n + 1)).filter (fun x => x != (n + 1))
          = List.range (n + 1) := by
        apply List.filter_eq_self.mpr
        intro x hx
        have : x < n + 1 := List.mem_range.mp hx
        simp
        omega
      rw [hdrop, hkeep, List.append_nil]
      have hid : ∀ x ∈ List.range (n + 1), dropGt (n + 1) x = x := by
        intro x hx
        have : x < n + 1 := List.mem_range.mp hx
        simp [dropGt]
        omega
      rw [List.map_congr_left hid]
      exact (List.map_id _) ▸ List.Perm.refl _

theorem moveShift_eq_comp (oldP newP x : Nat) (hx : x ≠ oldP) :
    moveShift oldP newP x = bumpGe newP (dropGt oldP x) := by
  unfold moveShift bumpGe dropGt
  split_ifs <;> omega

theorem ids_createList (s : Scope) (newId : Nat) (position? : Option Nat) :
    (createList s newId position?).map (·.id) = s.map (·.id) ++ [newId] := by
  cases position? with
  | none => simp [createList]
  | some p =>
    simp only [createList, List.map_append, List.map_map, List.map_cons, List.map_nil]
    congr 1
    apply List.map_congr_left
    intro x _
    by_cases h : (p ≤ x.pos && !x.archived) = true <;> simp [Function.comp, h]

theorem ids_moveList (s : Scope) (listId newPos : Nat) :
    (moveList s listId newPos).map (·.id) = s.map (·.id) := by
  unfold moveList
  cases hfind : s.find? (fun l => l.id == listId) with
  | none => rfl
  | some target =>
    by_cases heq : target.pos = newPos
    · simp [heq]
    · by_cases hlt : target.pos < newPos <;>
        · simp only [heq, if_false, hlt, if_true, if_false, List.map_map]
          apply List.map_congr_left
          intro x _
          simp only [Function.comp_apply]
          split
          · rfl
          · split <;> rfl

theorem ids_archiveList (s : Scope) (listId : Nat) :
    (archiveList s listId).map (·.id) = s.map (·.id) := by
  unfold archiveList
  cases hfind : s.find? (fun l => l.id == listId) with
  | none => rfl
  | some target =>
    by_cases ht : target.archived
    · simp [ht]
    · simp only [ht, if_false, List.map_map, Bool.false_eq_true]
      apply List.map_congr_left
      intro x _
      simp only [Function.comp_apply]
      split
      · rfl
      · split <;> rfl

theorem ids_deleteList_sublist (s : Scope) (listId : Nat) :
    ((deleteList s listId).map (·.id)).Sublist (s.map (·.id)) := by
  unfold deleteList
  cases hfind : s.find? (fun l => l.id == listId) with
  | none => exact List.Sublist.refl _
  | some target =>
    have h1 : ((s.filter (fun l => !(l.id == listId))).map (fun l =>
        if target.pos < l.pos && !l.archived then { l with pos := l.pos - 1 }
        else l)).map (·.id) = (s.filter (fun l => !(l.id == listId))).map (·.id) := by
      rw [List.map_map]
      apply List.map_congr_left
      intro x _
      simp only [Function.comp_apply]
      split <;> rfl
    rw [h1]
    exact List.Sublist.map _ (List.filter_sublist s)

theorem applyOp_nodup (s : Scope) (op : Op)
    (hids : (s.map (·.id)).Nodup) (hok : opOk s op = true) :
    ((applyOp s op).map (·.id)).Nodup := by
  cases op with
  | create newId position? =>
    have hfresh : newId ∉ s.map (·.id) := by
      have hall : s.all (fun l => !(l.id == newId)) = true := by
        have := hok
        simp only [opOk, Bool.and_eq_true] at this
        exact this.1
      rw [List.all_eq_true] at hall
      intro hmem
      obtain ⟨x, hx, hxid⟩ := List.mem_map.mp hmem
      have := hall x hx
      simp [hxid] at this
    show ((createList s newId position?).map (·.id)).Nodup
    rw [ids_createList]
    have hperm : List.Perm (s.map (·.id) ++ [newId]) (newId :: s.map (·.id)) :=
      List.perm_append_comm
    rw [hperm.nodup_iff, List.nodup_cons]
    exact ⟨hfresh, hids⟩
  | move listId newPos =>
    show ((moveList s listId newPos).map (·.id)).Nodup
    rw [ids_moveList]
    exact hids
  | archive listId =>
    show ((archiveList s listId).map (·.id)).Nodup
    rw [ids_archiveList]
    exact hids
  | delete listId =>
    exact (ids_deleteList_sublist s listId).nodup hids

theorem contiguous_createList (s : Scope) (newId : Nat) (position? : Option Nat)
    (hcont : Contiguous s)
    (hp : ∀ p, position? = some p → p ≤ activeCount s) :
    Contiguous (createList s newId position?) := by
  cases position? with
  | some p =>
    have hple : p ≤ activeCount s := hp p rfl
    have h1 := activePos_create_some s newId p
    unfold Contiguous activeCount
    rw [h1]
    simp only [List.length_append, List.length_map, List.length_cons,
      List.length_nil]
    exact ((hcont.map (bumpGe p)).append_right [p]).trans
      (by simpa [activeCount] using range_bump_insert (activeCount s) p hple)
  | none =>
    have h1 := activePos_create_none s newId
    cases hmax : maxActivePos s with
    | none =>
      have hempty : activePos s = [] := List.max?_eq_none_iff.mp hmax
      unfold Contiguous activeCount
      simp [h1, hmax, hempty, List.range_succ]
    | some m =>
      have hms : (activePos s).max? = some m := hmax
      have hspec : m ∈ activePos s ∧ ∀ x ∈ activePos s, x ≤ m := by
        rw [List.max?_eq_some_iff] at hms
        · exact hms
        all_goals simp [le_total]
      have hmlt : m < activeCount s :=
        List.mem_range.mp (hcont.subset hspec.1)
      have hm_eq : m + 1 = activeCount s := by
        have hmem : activeCount s - 1 ∈ List.range (activeCount s) :=
          List.mem_range.mpr (by omega)
        have h2 : activeCount s - 1 ∈ activePos s := hcont.mem_iff.mpr hmem
        have h3 := hspec.2 _ h2
        omega
      unfold Contiguous activeCount
      simp only [h1, hmax, List.length_append, List.length_cons, List.length_nil]
      rw [hm_eq]
      exact (hcont.append_right [activeCount s]).trans
        (by rw [← List.range_succ]; exact List.Perm.refl _)

theorem contiguous_archiveList (s : Scope) (listId : Nat)
    (hids : (s.map (·.id)).Nodup) (hcont : Contiguous s) :
    Contiguous (archiveList s listId) := by
  cases hfind : s.find? (fun l => l.id == listId) with
  | none =>
    have h : archiveList s listId = s := by unfold archiveList; rw [hfind]
    rw [h]
    exact hcont
  | some target =>
    by_cases ht : target.archived
    · have h : archiveList s listId = s := by unfold archiveList; rw [hfind]; simp [ht]
      rw [h]
      exact hcont
    · have hact : target.archived = false := by simpa using ht
      obtain ⟨A, B, hAB, hres⟩ := archive_decomp s listId target hids hfind hact
      have hq : List.Perm (target.pos :: (A ++ B)) (List.range (activeCount s)) := by
        refine List.perm_middle.symm.trans ?_
        rw [← hAB]
        exact hcont
      have hlen : activeCount s = A.length + B.length + 1 := by
        have := hq.length_eq
        simp at this
        omega
      rw [hlen] at hq
      have hqle : target.pos ≤ A.length + B.length := by
        have := List.mem_range.mp (hq.subset (List.mem_cons_self _ _))
        omega
      have hrest := (List.cons_perm_iff_perm_erase.mp hq).2
      rw [List.Nodup.erase_eq_filter (List.nodup_range _)] at hrest
      have hfinal : List.Perm ((A ++ B).map (dropGt target.pos))
          (List.range (A.length + B.length)) :=
        (hrest.map (dropGt target.pos)).trans
          (range_erase_drop (A.length + B.length) target.pos hqle)
      unfold Contiguous activeCount
      rw [hres]
      simpa using hfinal

theorem contiguous_deleteList (s : Scope) (listId : Nat)
    (hids : (s.map (·.id)).Nodup) (hcont : Contiguous s)
    (hok : opOk s (Op.delete listId) = true) :
    Contiguous (deleteList s listId) := by
  cases hfind : s.find? (fun l => l.id == listId) with
  | none =>
    have h : deleteList s listId = s := by unfold deleteList; rw [hfind]
    rw [h]
    exact hcont
  | some target =>
    have hact : target.archived = false := by
      simp only [opOk, hfind] at hok
      simpa using hok
    obtain ⟨A, B, hAB, hres⟩ := delete_decomp s listId target hids hfind hact
    have hq : List.Perm (target.pos :: (A ++ B)) (List.range (activeCount s)) := by
      refine List.perm_middle.symm.trans ?_
      rw [← hAB]
      exact hcont
    have hlen : activeCount s = A.length + B.length + 1 := by
      have := hq.length_eq
      simp at this
      omega
    rw [hlen] at hq
    have hqle : target.pos ≤ A.length + B.length := by
      have := List.mem_range.mp (hq.subset (List.mem_cons_self _ _))
      omega
    have hrest := (List.cons_perm_iff_perm_erase.mp hq).2
    rw [List.Nodup.erase_eq_filter (List.nodup_range _)] at hrest
    have hfinal : List.Perm ((A ++ B).map (dropGt target.pos))
        (List.range (A.length + B.length)) :=
      (hrest.map (dropGt target.pos)).trans
        (range_erase_drop (A.length + B.length) target.pos hqle)
    unfold Contiguous activeCount
    rw [hres]
    simpa using hfinal

theorem contiguous_moveList (s : Scope) (listId newPos : Nat)
    (hids : (s.map (·.id)).Nodup) (hcont : Contiguous s)
    (hok : opOk s (Op.move listId newPos) = true) :
    Contiguous (moveList s listId newPos) := by
  cases hfind : s.find? (fun l => l.id == listId) with
  | none =>
    have h : moveList s listId newPos = s := by unfold moveList; rw [hfind]
    rw [h]
    exact hcont
  | some target =>
    by_cases heq : target.pos = newPos
    · have h : moveList s listId newPos = s := by unfold moveList; rw [hfind]; simp [heq]
      rw [h]
      exact hcont
    · have hcond : target.archived = false ∧ newPos < activeCount s := by
        simp only [opOk, hfind, Bool.or_eq_true, Bool.and_eq_true] at hok
        rcases hok with h | h
        · exact absurd (by simpa using h) heq
        · exact ⟨by simpa using h.1, by simpa using h.2⟩
      obtain ⟨A, B, hAB, hres⟩ :=
        move_decomp s listId newPos target hids hfind hcond.1 heq
      have hq : List.Perm (target.pos :: (A ++ B)) (List.range (activeCount s)) := by
        refine List.perm_middle.symm.trans ?_
        rw [← hAB]
        exact hcont
      have hlen : activeCount s = A.length + B.length + 1 := by
        have := hq.length_eq
        simp at this
        omega
      rw [hlen] at hq
      have hqle : target.pos ≤ A.length + B.length := by
        have := List.mem_range.mp (hq.subset (List.mem_cons_self _ _))
        omega
      have hqnotin : target.pos ∉ A ++ B := by
        have hnd : (target.pos :: (A ++ B)).Nodup :=
          hq.nodup_iff.mpr (List.nodup_range _)
        exact (List.nodup_cons.mp hnd).1
      have hrest := (List.cons_perm_iff_perm_erase.mp hq).2
      rw [List.Nodup.erase_eq_filter (List.nodup_range _)] at hrest
      have hdrop : List.Perm ((A ++ B).map (dropGt target.pos))
          (List.range (A.length + B.length)) :=
        (hrest.map (dropGt target.pos)).trans
          (range_erase_drop (A.length + B.length) target.pos hqle)
      have hcomp : (A ++ B).map (moveShift target.pos newPos)
          = ((A ++ B).map (dropGt target.pos)).map (bumpGe newPos) := by
        rw [List.map_map]
        apply List.map_congr_left
        intro x hx
        exact moveShift_eq_comp target.pos newPos x (fun he => hqnotin (he ▸ hx))
      have hnp_le : newPos ≤ A.length + B.length := by omega
      have hbump : List.Perm (((A ++ B).map (dropGt target.pos)).map (bumpGe newPos)
          ++ [newPos]) (List.range (A.length + B.length + 1)) :=
        ((hdrop.map (bumpGe newPos)).append_right [newPos]).trans
          (range_bump_insert (A.length + B.length) newPos hnp_le)
      unfold Contiguous activeCount
      rw [hres]
      have hshape : List.Perm
          (A.map (moveShift target.pos newPos)
            ++ newPos :: B.map (moveShift target.pos newPos))
          (((A ++ B).map (dropGt target.pos)).map (bumpGe newPos) ++ [newPos]) := by
        refine List.perm_middle.trans ?_
        rw [← List.map_append, hcomp]
        exact (List.perm_append_singleton _ _).symm
      refine hshape.trans ?_
      refine hbump.trans ?_
      have hlena : (A.map (moveShift target.pos newPos)
          ++ newPos :: B.map (moveShift target.pos newPos)).length
          = A.length + B.length + 1 := by
        simp
        omega
      rw [hlena]

theorem applyOp_WF (s : Scope) (op : Op) (hwf : WFScope s) (hok : opOk s op = true) :
    WFScope (applyOp s op) := by
  obtain ⟨hids, hcont⟩ := hwf
  refine ⟨applyOp_nodup s op hids hok, ?_⟩
  cases op with
  | create newId position? =>
    refine contiguous_createList s newId position? hcont ?_
    intro p hp
    subst hp
    simp only [opOk, Bool.and_eq_true] at hok
    simpa using hok.2
  | move listId newPos => exact contiguous_moveList s listId newPos hids hcont hok
  | archive listId => exact contiguous_archiveList s listId hids hcont
  | delete listId => exact contiguous_deleteList s listId hids hcont hok

theorem applyOps_WF : ∀ (ops : List Op) (s : Scope),
    WFScope s → opsOk s ops = true → WFScope (applyOps s ops) := by
  intro ops
  induction ops with
  | nil => intro s hwf _; exact hwf
  | cons op rest ih =>
    intro s hwf hok
    simp only [opsOk, Bool.and_eq_true] at hok
    exact ih (applyOp s op) (applyOp_WF s op hwf hok.1) hok.2

theorem runHandlers_spec (rk : String) : ∀ handlers : HandlerRegistry,
    (runHandlers rk handlers = ([], false, false)
      ∧ ∀ h ∈ handlers, matchPattern rk h.1 = false)
    ∨ (∃ i p b, runHandlers rk handlers = ([i], true, b)
        ∧ handlers[i]? = some (p, b) ∧ matchPattern rk p = true
        ∧ ∀ j, j < i → ∃ q, handlers[j]? = some q ∧ matchPattern rk q.1 = false) := by
  intro handlers
  induction handlers with
  | nil => exact Or.inl ⟨rfl, by simp⟩
  | cons hd tl ih =>
    obtain ⟨p, b⟩ := hd
    by_cases hm : matchPattern rk p
    · right
      refine ⟨0, p, b, ?_, by simp, hm, ?_⟩
      · simp [runHandlers, hm]
      · intro j hj
        omega
    · rcases ih with ⟨hrun, hall⟩ | ⟨i, p', b', hrun, hget, hmatch, hmin⟩
      · left
        constructor
        · simp [runHandlers, hm, hrun]
        · intro h hh
          rcases List.mem_cons.mp hh with rfl | hh
          · simpa using hm
          · exact hall h hh
      · right
        refine ⟨i + 1, p', b', ?_, ?_, hmatch, ?_⟩
        · simp [runHandlers, hm, hrun]
        · simpa using hget
        · intro j hj
          cases j with
          | zero => exact ⟨(p, b), by simp, by simpa using hm⟩
          | succ j' =>
            obtain ⟨q, hq, hqm⟩ := hmin j' (by omega)
            exact ⟨q, by simpa using hq, hqm⟩

/-- Claim C1.  The spec claims that an event published without an explicit routing
key travels with the event type itself as routing key (`card.moved` ⇒
`card.moved`).  The code's fallback `eventType.replace('.', '_')` instead
replaces the FIRST dot with an underscore, so `card.moved` is published
under `card_moved` and `workspace.member.added` under
`workspace_member.added` — keys no dot-segment consumer pattern matches. -/
theorem claim_C1_default_routing_key_mangled :
    publishRoutingKey "card.moved" "" = "card_moved"
    ∧ publishRoutingKey "workspace.member.added" "" = "workspace_member.added"
    ∧ publishRoutingKey "card.moved" "" ≠ "card.moved" := by
  refine ⟨by decide, by decide, by decide⟩

/-- Claim C5.  The consumer's pattern matcher: `card.moved.urgent` matches
`card.*.*` and `card.#` but not `card.*`, and the bare `#` pattern matches
every routing key, the empty one included. -/
theorem claim_C5_pattern_matching :
    (∀ routingKey, matchPattern routingKey "#" = true)
    ∧ matchPattern "card.moved.urgent" "card.*.*" = true
    ∧ matchPattern "card.moved.urgent" "card.#" = true
    ∧ matchPattern "card.moved.urgent" "card.*" = false
    ∧ matchPattern "" "#" = true := by
  refine ⟨fun routingKey => ?_, by decide, by decide, by decide, by decide⟩
  simp [matchPattern]

/-- Claim C10.  One consumed delivery: a message whose routing key matches no
registered pattern is still acknowledged (after a warning) with no handler
invoked; a parse failure or a throwing matched handler causes
nack-with-requeue; at most one handler — the first registered whose pattern
matches — is invoked per delivery, and a nack in the parsed case comes only
from that matched handler throwing. -/
theorem claim_C10_consume_ack_discipline :
    ∀ (handlers : HandlerRegistry) (routingKey : String),
    consumeStep handlers false routingKey = (Ack.nackRequeue, [])
    ∧ ((∀ h ∈ handlers, matchPattern routingKey h.1 = false) →
        consumeStep handlers true routingKey = (Ack.ack, []))
    ∧ (consumeStep handlers true routingKey).2.length ≤ 1
    ∧ (∀ i, i ∈ (consumeStep handlers true routingKey).2 →
        ∃ p b, handlers[i]? = some (p, b) ∧ matchPattern routingKey p = true
          ∧ ∀ j, j < i → ∃ q, handlers[j]? = some q ∧ matchPattern routingKey q.1 = false)
    ∧ ((consumeStep handlers true routingKey).1 = Ack.nackRequeue →
        ∃ i p, (consumeStep handlers true routingKey).2 = [i]
          ∧ handlers[i]? = some (p, true) ∧ matchPattern routingKey p = true) := by
  intro handlers routingKey
  refine ⟨rfl, ?_, ?_, ?_, ?_⟩
  · intro hnone
    rcases runHandlers_spec routingKey handlers with ⟨hrun, _⟩ |
      ⟨i, p, b, _, hget, hmatch, _⟩
    · simp [consumeStep, hrun]
    · have hpmem : (p, b) ∈ handlers := by
        have := List.getElem?_eq_some_iff.mp hget
        obtain ⟨hlt, heq⟩ := this
        exact heq ▸ List.getElem_mem hlt
      have := hnone (p, b) hpmem
      simp [hmatch] at this
  · rcases runHandlers_spec routingKey handlers with ⟨hrun, _⟩ |
      ⟨i, p, b, hrun, _, _, _⟩
    · simp [consumeStep, hrun]
    · cases b <;> simp [consumeStep, hrun]
  · intro i hi
    rcases runHandlers_spec routingKey handlers with ⟨hrun, _⟩ |
      ⟨i', p, b, hrun, hget, hmatch, hmin⟩
    · simp [consumeStep, hrun] at hi
    · have hi' : i = i' := by
        cases b <;> simp [consumeStep, hrun] at hi <;> omega
      subst hi'
      exact ⟨p, b, hget, hmatch, hmin⟩
  · intro hnack
    rcases runHandlers_spec routingKey handlers with ⟨hrun, _⟩ |
      ⟨i, p, b, hrun, hget, hmatch, _⟩
    · simp [consumeStep, hrun] at hnack
    · cases b with
      | false => simp [consumeStep, hrun] at hnack
      | true =>
        refine ⟨i, p, ?_, hget, hmatch⟩
        simp [consumeStep, hrun]

/-- Claim C7.  A committed mutation answers success even when the subsequent
event publish throws: in `createList` and `createWorkspace` the publish is
wrapped in try/catch whose catch only logs, so the stored state and the
201 response are identical whether the publish succeeded or raised, and
the persisted state holds the new entity. -/
theorem claim_C7_publish_failure_is_best_effort :
    ∀ (s : Scope) (newId : Nat) (position? : Option Nat) (e : String) (m : Nat)
      (stored : List Workspace) (w : Workspace),
    (createListController s newId position? (Except.error e)).1
        = createList s newId position?
    ∧ (createListController s newId position? (Except.error e)).2.1 = ⟨201, true⟩
    ∧ (createListController s newId position? (Except.error e)).2.1
        = (createListController s newId position? (Except.ok m)).2.1
    ∧ (createListController s newId position? (Except.error e)).1
        = (createListController s newId position? (Except.ok m)).1
    ∧ (createWorkspaceController stored w (Except.error e)).1 = stored ++ [w]
    ∧ (createWorkspaceController stored w (Except.error e)).2.1 = ⟨201, true⟩
    ∧ w ∈ (createWorkspaceController stored w (Except.error e)).1 := by
  intro s newId position? e m stored w
  refine ⟨rfl, rfl, rfl, rfl, rfl, rfl, ?_⟩
  simp [createWorkspaceController]

/-- Claim C8.  `hasPermission(userId, requiredRole)` returns true exactly when
the caller owns the board or appears in the (userId-keyed) members table
with a role whose rank reaches the required rank under
viewer < member < admin. -/
theorem claim_C8_hasPermission_iff :
    ∀ (b : Board) (userId : Nat) (requiredRole : Role),
    (b.members.map (·.userId)).Nodup →
    (b.hasPermission userId requiredRole = true ↔
      b.owner = userId ∨ ∃ m ∈ b.members, m.userId = userId
        ∧ roleHierarchy requiredRole ≤ roleHierarchy m.role) := by
  intro b userId requiredRole hnd
  unfold Board.hasPermission
  by_cases how : b.owner = userId
  · simp [how]
  · have hbeq : (b.owner == userId) = false := by simpa using how
    cases hfind : b.members.find? (fun m => m.userId == userId) with
    | none =>
      simp only [hbeq, Bool.false_eq_true, if_false, hfind]
      constructor
      · intro h
        cases h
      · rintro (h | ⟨m, hm, hmid, _⟩)
        · exact absurd h how
        · have := List.find?_eq_none.mp hfind m hm
          simp [hmid] at this
    | some m =>
      have hmmem : m ∈ b.members := List.mem_of_find?_eq_some hfind
      have hmid : m.userId = userId := by simpa using List.find?_some hfind
      simp only [hbeq, Bool.false_eq_true, if_false, hfind]
      constructor
      · intro h
        exact Or.inr ⟨m, hmmem, hmid, by simpa using h⟩
      · rintro (h | ⟨m', hm', hmid', hrank⟩)
        · exact absurd h how
        · have hmm : m' = m :=
            List.inj_on_of_nodup_map hnd hm' hmmem (hmid'.trans hmid.symm)
          subst hmm
          simpa using hrank

/-- Witness for C8 at a concrete board: owner 0, member 1 with role
`member`, required role `member`. -/
theorem claim_C8_hasPermission_iff_witness :
    (([⟨1, Role.member⟩] : List Member).map (·.userId)).Nodup
    ∧ ((Board.mk 0 [⟨1, Role.member⟩]).hasPermission 1 Role.member = true ↔
        (Board.mk 0 [⟨1, Role.member⟩]).owner = 1
        ∨ ∃ m ∈ (Board.mk 0 [⟨1, Role.member⟩]).members, m.userId = 1
            ∧ roleHierarchy Role.member ≤ roleHierarchy m.role) :=
  ⟨by decide, claim_C8_hasPermission_iff (Board.mk 0 [⟨1, Role.member⟩]) 1 Role.member
    (by decide)⟩

/-- Witness for C10 at a concrete registry and routing key: a consumer
bound only to `list.#` does not receive `card.assigned` yet acks it. -/
theorem claim_C10_consume_ack_discipline_witness :
    (∀ h ∈ ([("list.#", false)] : HandlerRegistry), matchPattern "card.assigned" h.1 = false)
    ∧ consumeStep [("list.#", false)] true "card.assigned" = (Ack.ack, []) := by
  refine ⟨by decide, ?_⟩
  exact (claim_C10_consume_ack_discipline [("list.#", false)] "card.assigned").2.1
    (by decide)

/-- Claim C3.  `moveList` has exactly the spec's effect: a move onto the item's
own position writes nothing; otherwise the moved item lands on the
requested position while every other non-archived item is shifted by the
spec's window function (`moveShift`: decrement on `(old, new]` when moving
right, increment on `[new, old)` when moving left) and archived items are
untouched.  The spec's scenario: `[0,1,2,3]`, move the item at 3 to 1 ⇒
moved → 1, former 1 → 2, former 2 → 3, former 0 stays. -/
theorem claim_C3_move_effect :
    (∀ (s : Scope) (listId newPos : Nat) (target : LItem),
      s.find? (fun l => l.id == listId) = some target →
      (target.pos = newPos → moveList s listId newPos = s)
      ∧ (target.pos ≠ newPos → moveList s listId newPos = s.map (fun l =>
          if l.id == listId then { l with pos := newPos }
          else if l.archived then l
          else { l with pos := moveShift target.pos newPos l.pos })))
    ∧ moveList [⟨10, 0, false⟩, ⟨11, 1, false⟩, ⟨12, 2, false⟩, ⟨13, 3, false⟩] 13 1
        = [⟨10, 0, false⟩, ⟨11, 2, false⟩, ⟨12, 3, false⟩, ⟨13, 1, false⟩]
    ∧ moveList [⟨10, 0, false⟩, ⟨11, 1, false⟩, ⟨12, 2, false⟩] 10 2
        = [⟨10, 2, false⟩, ⟨11, 0, false⟩, ⟨12, 1, false⟩] := by
  refine ⟨?_, by decide, by decide⟩
  intro s listId newPos target hfind
  constructor
  · intro heq
    unfold moveList
    rw [hfind]
    simp [heq]
  · intro hne
    rcases Nat.lt_or_gt_of_ne hne with hlt | hgt
    · rw [moveList_eq_of_find_lt hfind hlt]
      apply List.map_congr_left
      intro x _
      obtain ⟨xi, xp, xa⟩ := x
      by_cases hid : (xi == listId) = true
      · simp [hid]
      · by_cases ha : xa
        · simp [hid, ha]
        · have ha' : xa = false := by simpa using ha
          subst ha'
          by_cases h1 : target.pos < xp
          · by_cases h2 : xp ≤ newPos
            · simp [hid, h1, h2, moveShift, hlt]
            · simp [hid, h1, h2, moveShift, hlt]
          · simp [hid, h1, moveShift, hlt]
    · rw [moveList_eq_of_find_gt hfind hgt]
      apply List.map_congr_left
      intro x _
      obtain ⟨xi, xp, xa⟩ := x
      by_cases hid : (xi == listId) = true
      · simp [hid]
      · by_cases ha : xa
        · simp [hid, ha]
        · have ha' : xa = false := by simpa using ha
          subst ha'
          by_cases h1 : newPos ≤ xp
          · by_cases h2 : xp < target.pos
            · simp [hid, h1, h2, moveShift, Nat.lt_asymm hgt]
            · simp [hid, h1, h2, moveShift, Nat.lt_asymm hgt]
          · simp [hid, h1, moveShift, Nat.lt_asymm hgt]

/-- Witness for C3's no-op clause at a concrete scope: moving list 2 onto
its own position 1 writes nothing. -/
theorem claim_C3_move_effect_witness :
    moveList [⟨1, 0, false⟩, ⟨2, 1, false⟩] 2 1 = [⟨1, 0, false⟩, ⟨2, 1, false⟩] :=
  ((claim_C3_move_effect.1 [⟨1, 0, false⟩, ⟨2, 1, false⟩] 2 1 ⟨2, 1, false⟩
    (by decide)).1) rfl

/-- Claim C4 counterexample.  The claim says a requested position outside
`[0, count]` is clamped to `count`, and an insert into an empty scope
always lands at 0.  The code never clamps: inserting at 5 into a 2-item
scope stores the list at position 5 (clamping would store 2), and
inserting at 5 into an empty scope stores 5 (not 0). -/
theorem claim_C4_counterexample_no_clamp :
    createList [⟨1, 0, false⟩, ⟨2, 1, false⟩] 3 (some 5)
      = [⟨1, 0, false⟩, ⟨2, 1, false⟩, ⟨3, 5, false⟩]
    ∧ activeCount [⟨1, 0, false⟩, ⟨2, 1, false⟩] = 2
    ∧ createList ([] : Scope) 1 (some 5) = [⟨1, 5, false⟩] := by
  refine ⟨by decide, by decide, by decide⟩

/-- Claim C4 amended.  No normalization happens: `createList` applies the raw
requested position `p`, shifting exactly the non-archived lists at
positions `≥ p` (when `p > count` nothing shifts and the new list lands at
`p`, leaving a gap); only an insert with the position omitted appends at
the end, which in an empty scope is position 0. -/
theorem claim_C4_amended_raw_position :
    ∀ (s : Scope) (newId p : Nat),
    activePos (createList s newId (some p)) = (activePos s).map (bumpGe p) ++ [p]
    ∧ createList ([] : Scope) newId none = [⟨newId, 0, false⟩] := by
  intro s newId p
  exact ⟨activePos_create_some s newId p, rfl⟩

/-- Claim C2 counterexample.  The claim promises `{0, …, n-1}` positions after
ANY sequence of insert/move/remove operations; position requests are
validated only to be `≥ 0`, and a single insert at position 5 into an
empty board already leaves the position set `{5}` instead of `{0}`. -/
theorem claim_C2_counterexample_out_of_range_insert :
    activePos (applyOps ([] : Scope) [Op.create 1 (some 5)]) = [5]
    ∧ ¬ Contiguous (applyOps ([] : Scope) [Op.create 1 (some 5)]) := by
  refine ⟨by decide, by decide⟩

/-- Claim C2 amended.  Starting from a well-formed scope (unique ids, contiguous
positions), every sequence of operations that is in-range — inserts with a
fresh id and requested position `≤ count` (or omitted), moves whose target
is non-archived and whose new position is `< count` (or equal to the old
position), archives, and deletes of non-archived targets — leaves the
non-archived positions exactly `{0, …, n-1}`: a permutation of
`range n` with `n` the number of non-archived lists, hence no gaps and no
duplicates. -/
theorem claim_C2_amended_contiguity :
    ∀ (s : Scope) (ops : List Op), WFScope s → opsOk s ops = true →
    List.Perm (activePos (applyOps s ops)) (List.range (activeCount (applyOps s ops))) := by
  intro s ops hwf hok
  exact (applyOps_WF ops s hwf hok).2

/-- Witness for C2 amended: from the empty board, append two lists, move
one, archive one — positions stay contiguous. -/
theorem claim_C2_amended_contiguity_witness :
    WFScope ([] : Scope)
    ∧ opsOk ([] : Scope)
        [Op.create 1 none, Op.create 2 (some 0), Op.move 2 1, Op.archive 1] = true
    ∧ List.Perm
        (activePos (applyOps ([] : Scope)
          [Op.create 1 none, Op.create 2 (some 0), Op.move 2 1, Op.archive 1]))
        (List.range (activeCount (applyOps ([] : Scope)
          [Op.create 1 none, Op.create 2 (some 0), Op.move 2 1, Op.archive 1]))) :=
  ⟨by decide, by decide,
    claim_C2_amended_contiguity []
      [Op.create 1 none, Op.create 2 (some 0), Op.move 2 1, Op.archive 1]
      (by decide) (by decide)⟩

theorem handleClientEv_shape {uid : String} {st : Session} {ev : ClientEv}
    (hP : sessionShape uid st) (hok : evOk st ev = true) :
    sessionShape uid (handleClientEv st ev) := by
  cases ev with
  | joinBoard b =>
    cases hcur : st.currentBoard with
    | none =>
      have hr : st.rooms = [Room.user uid] := by
        have := hP
        rw [sessionShape, hcur] at this
        exact this
      simp only [handleClientEv, hcur]
      unfold sessionShape joinBoardRoom socketJoin sendEmission
      simp [hr]
    | some c =>
      have hr : st.rooms = [Room.user uid, Room.board c] := by
        have := hP
        rw [sessionShape, hcur] at this
        exact this
      by_cases hb : c = b
      · subst hb
        simp only [handleClientEv, hcur, ne_eq, not_true_eq_false, if_neg,
          not_false_eq_true, if_pos]
        unfold sessionShape joinBoardRoom socketJoin sendEmission
        simp [hr]
      · simp only [handleClientEv, hcur, ne_eq, hb, not_false_eq_true, if_pos]
        unfold sessionShape joinBoardRoom leaveBoardRoom socketJoin socketLeave
          sendEmission
        simp [hr, List.erase_cons]
  | leaveBoard b =>
    have hcur : st.currentBoard = some b := by
      have := hok
      simp only [evOk] at this
      simpa using this
    have hr : st.rooms = [Room.user uid, Room.board b] := by
      have := hP
      rw [sessionShape, hcur] at this
      exact this
    simp only [handleClientEv]
    unfold sessionShape leaveBoardRoom socketLeave sendEmission
    simp [hr, List.erase_cons]
  | startTyping b =>
    simp only [handleClientEv]
    unfold sessionShape sendEmission
    unfold sessionShape at hP
    simpa using hP
  | stopTyping b =>
    simp only [handleClientEv]
    unfold sessionShape sendEmission
    unfold sessionShape at hP
    simpa using hP

theorem handleClientEvs_shape {uid : String} :
    ∀ (evs : List ClientEv) (st : Session), sessionShape uid st →
      evsOk st evs = true → sessionShape uid (handleClientEvs st evs) := by
  intro evs
  induction evs with
  | nil => intro st hP _; exact hP
  | cons ev rest ih =>
    intro st hP hok
    simp only [evsOk, Bool.and_eq_true] at hok
    exact ih (handleClientEv st ev) (handleClientEv_shape hP hok.1) hok.2

/-- Claim C6 counterexample.  The claim promises at most one board room per
session for EVERY join/leave sequence.  `leave_board` trusts the
client-supplied board id: after `join_board A`, a `leave_board B` clears
`socket.currentBoard` without leaving `board:A`, and a following
`join_board C` skips the leave-previous step — leaving the session in the
two board rooms `board:A` and `board:C` at once. -/
theorem claim_C6_counterexample_two_board_rooms :
    boardRooms (handleClientEvs (initialSession "u")
        [ClientEv.joinBoard "A", ClientEv.leaveBoard "B", ClientEv.joinBoard "C"])
      = [Room.board "A", Room.board "C"]
    ∧ ¬ (boardRooms (handleClientEvs (initialSession "u")
        [ClientEv.joinBoard "A", ClientEv.leaveBoard "B", ClientEv.joinBoard "C"])).length ≤ 1 := by
  refine ⟨by decide, by decide⟩

/-- Claim C6 amended.  Provided every `leave_board` event names the board the
session currently tracks, the invariant holds for every event sequence: the
session occupies at most one board room, a join to a different board leaves
the previous room first (the final board-room set is exactly the tracked
board), and the personal room is kept throughout. -/
theorem claim_C6_amended_single_board_room :
    ∀ (uid : String) (evs : List ClientEv),
    evsOk (initialSession uid) evs = true →
    (boardRooms (handleClientEvs (initialSession uid) evs)).length ≤ 1
    ∧ Room.user uid ∈ (handleClientEvs (initialSession uid) evs).rooms
    ∧ (∀ b, (handleClientEvs (initialSession uid) evs).currentBoard = some b →
        boardRooms (handleClientEvs (initialSession uid) evs) = [Room.board b])
    ∧ ((handleClientEvs (initialSession uid) evs).currentBoard = none →
        boardRooms (handleClientEvs (initialSession uid) evs) = []) := by
  intro uid evs hok
  have hinit : sessionShape uid (initialSession uid) := by
    unfold sessionShape initialSession
    simp
  have hP := handleClientEvs_shape evs (initialSession uid) hinit hok
  unfold sessionShape at hP
  cases hcur : (handleClientEvs (initialSession uid) evs).currentBoard with
  | none =>
    rw [hcur] at hP
    refine ⟨?_, ?_, ?_, ?_⟩
    · simp [boardRooms, hP]
    · simp [hP]
    · intro b hb
      cases hb
    · intro _
      simp [boardRooms, hP]
  | some c =>
    rw [hcur] at hP
    refine ⟨?_, ?_, ?_, ?_⟩
    · simp [boardRooms, hP]
    · simp [hP]
    · intro b hb
      injection hb with hb
      subst hb
      simp [boardRooms, hP]
    · intro hnone
      cases hnone

/-- Witness for C6 amended: join A, then join B (which leaves A first),
then a well-formed leave of B. -/
theorem claim_C6_amended_single_board_room_witness :
    evsOk (initialSession "u")
        [ClientEv.joinBoard "A", ClientEv.joinBoard "B", ClientEv.leaveBoard "B"] = true
    ∧ ((boardRooms (handleClientEvs (initialSession "u")
          [ClientEv.joinBoard "A", ClientEv.joinBoard "B", ClientEv.leaveBoard "B"])).length ≤ 1
        ∧ Room.user "u" ∈ (handleClientEvs (initialSession "u")
          [ClientEv.joinBoard "A", ClientEv.joinBoard "B", ClientEv.leaveBoard "B"]).rooms
        ∧ (∀ b, (handleClientEvs (initialSession "u")
            [ClientEv.joinBoard "A", ClientEv.joinBoard "B", ClientEv.leaveBoard "B"]).currentBoard
              = some b →
            boardRooms (handleClientEvs (initialSession "u")
              [ClientEv.joinBoard "A", ClientEv.joinBoard "B", ClientEv.leaveBoard "B"])
              = [Room.board b])
        ∧ ((handleClientEvs (initialSession "u")
            [ClientEv.joinBoard "A", ClientEv.joinBoard "B", ClientEv.leaveBoard "B"]).currentBoard
              = none →
            boardRooms (handleClientEvs (initialSession "u")
              [ClientEv.joinBoard "A", ClientEv.joinBoard "B", ClientEv.leaveBoard "B"])
              = [])) :=
  ⟨by decide, claim_C6_amended_single_board_room "u"
    [ClientEv.joinBoard "A", ClientEv.joinBoard "B", ClientEv.leaveBoard "B"] (by decide)⟩

/-- Claim C9 counterexample.  The claim says disconnect cancels any pending
typing timer so no `user_stopped_typing` fires afterwards.  The disconnect
handler never touches the `typingTimer` closure: after joining board A,
typing, and disconnecting, the timer is still armed and its expiry still
broadcasts `user_stopped_typing` to `board:A`. -/
theorem claim_C9_counterexample_timer_survives_disconnect :
    (onDisconnect (handleClientEvs (initialSession "u")
        [ClientEv.joinBoard "A", ClientEv.startTyping "A"])).typingTimer = some "A"
    ∧ (fireTypingTimer (onDisconnect (handleClientEvs (initialSession "u")
          [ClientEv.joinBoard "A", ClientEv.startTyping "A"]))).emissions
        = (onDisconnect (handleClientEvs (initialSession "u")
            [ClientEv.joinBoard "A", ClientEv.startTyping "A"])).emissions
          ++ [Emission.userStoppedTyping (Room.board "A")] := by
  refine ⟨by decide, by decide⟩

/-- Claim C9 amended.  On disconnect the handler leaves the tracked board room
and broadcasts departure plus presence `offline` to it (and does nothing
when no board is tracked) — but it does NOT cancel a pending typing timer:
`typingTimer` survives disconnect unchanged, so an armed 3-second timeout
still fires its `user_stopped_typing` broadcast afterwards. -/
theorem claim_C9_amended_disconnect_cleanup :
    ∀ st : Session,
    (onDisconnect st).typingTimer = st.typingTimer
    ∧ (∀ b, st.currentBoard = some b →
        (onDisconnect st).rooms = st.rooms.erase (Room.board b)
        ∧ (onDisconnect st).emissions = st.emissions
            ++ [Emission.userLeftBoard (Room.board b),
                Emission.presenceUpdated (Room.board b) "offline"])
    ∧ (st.currentBoard = none → onDisconnect st = st) := by
  intro st
  cases hcur : st.currentBoard with
  | none =>
    refine ⟨?_, ?_, ?_⟩
    · simp [onDisconnect, hcur]
    · intro b hb
      cases hb
    · intro _
      simp [onDisconnect, hcur]
  | some c =>
    refine ⟨?_, ?_, ?_⟩
    · simp [onDisconnect, hcur, leaveBoardRoom, socketLeave, sendEmission]
    · intro b hb
      injection hb with hb
      subst hb
      constructor
      · simp [onDisconnect, hcur, leaveBoardRoom, socketLeave, sendEmission]
      · simp [onDisconnect, hcur, leaveBoardRoom, socketLeave, sendEmission]
    · intro hnone
      cases hnone

/-- Witness for C9 amended at a concrete session currently in board A with
an armed typing timer. -/
theorem claim_C9_amended_disconnect_cleanup_witness :
    (Session.mk "u" [Room.user "u", Room.board "A"] (some "A") (some "A") []).currentBoard
      = some "A"
    ∧ (onDisconnect (Session.mk "u" [Room.user "u", Room.board "A"] (some "A")
          (some "A") [])).typingTimer
        = (Session.mk "u" [Room.user "u", Room.board "A"] (some "A") (some "A") []).typingTimer
    ∧ (onDisconnect (Session.mk "u" [Room.user "u", Room.board "A"] (some "A")
          (some "A") [])).rooms
        = (Session.mk "u" [Room.user "u", Room.board "A"] (some "A")
            (some "A") []).rooms.erase (Room.board "A")
    ∧ (onDisconnect (Session.mk "u" [Room.user "u", Room.board "A"] (some "A")
          (some "A") [])).emissions
        = (Session.mk "u" [Room.user "u", Room.board "A"] (some "A") (some "A") []).emissions
          ++ [Emission.userLeftBoard (Room.board "A"),
              Emission.presenceUpdated (Room.board "A") "offline"] := by
  have h := claim_C9_amended_disconnect_cleanup
    (Session.mk "u" [Room.user "u", Room.board "A"] (some "A") (some "A") [])
  have h2 := h.2.1 "A" (by decide)
  exact ⟨by decide, h.1, h2.1, h2.2⟩

end ManagementApp
